import Mathlib

/-!
Verification of the sshmap host directory program.

The Rust sources are shallowly embedded: file contents are passed as their
list of lines, the home directory and the external probe tool are passed as
parameters, and `f64` latencies are modelled as rationals.  Machine strings
are modelled by `String` with all character-level operations re-implemented
structurally over `List Char` so that every definition evaluates by kernel
reduction.
-/

namespace SshMap

/-! ### Character-list primitives

These model the Rust standard-library string operations used by the program
(`trim`, `to_lowercase`, `contains`, `split`, byte-wise ordering), restricted
to the code-point level. -/

def isWS (c : Char) : Bool := c.isWhitespace

/-- Model of `str::trim`: drop whitespace from both ends. -/
def trimL (cs : List Char) : List Char :=
  ((cs.dropWhile isWS).reverse.dropWhile isWS).reverse

def trimS (s : String) : String := String.mk (trimL s.data)

/-- Model of `str::to_lowercase` (ASCII case mapping). -/
def toLowerS (s : String) : String := String.mk (s.data.map Char.toLower)

/-- Model of `str::contains(char)`. -/
def containsCharL (c : Char) : List Char → Bool
  | [] => false
  | x :: xs => decide (x = c) || containsCharL c xs

def containsCharS (c : Char) (s : String) : Bool := containsCharL c s.data

/-- Substring test: model of `str::contains(&str)`. -/
def isInfixL (n : List Char) : List Char → Bool
  | [] => n.isEmpty
  | c :: t => n.isPrefixOf (c :: t) || isInfixL n t

/-- The test `containsSubS hay needle`: `needle` occurs inside `hay`. -/
def containsSubS (hay needle : String) : Bool := isInfixL needle.data hay.data

/-- Model of `str::split(char)`: always returns at least one (possibly empty) field. -/
def splitOnCharL (sep : Char) : List Char → List (List Char)
  | [] => [[]]
  | c :: t =>
    let r := splitOnCharL sep t
    if c = sep then [] :: r
    else
      match r with
      | [] => [[c]]
      | g :: gs => (c :: g) :: gs

/-- Strict lexicographic order on code points: model of the byte-wise `Ord`
on Rust strings (UTF-8 byte order agrees with code-point order). -/
def lexLtL : List Char → List Char → Bool
  | [], [] => false
  | [], _ :: _ => true
  | _ :: _, [] => false
  | a :: as, b :: bs => decide (a < b) || (decide (a = b) && lexLtL as bs)

def strLt (a b : String) : Bool := lexLtL a.data b.data

/-- Value of a digit string, most significant first. -/
def digitsVal (ds : List Char) : Nat := ds.foldl (fun n c => 10 * n + (c.toNat - 48)) 0

/-! ### Data model (`src/host.rs`) -/

inductive HostStatus where
  | Unknown
  | Checking
  | Up (rtt : ℚ)
  | Down
  deriving DecidableEq

structure Host where
  /-- source field name: `alias` (a Lean keyword) -/
  aliasName : String
  hostname : String
  user : String
  port : Nat
  identity_file : Option String
  group : String
  status : HostStatus
  deriving DecidableEq

/-! ### `parse_ssh_config` (`src/host.rs` lines 89-180)

The loop body is split into a per-line classifier (`classifyLine`, the
comment/blank/key-value analysis at the top of the loop) and the state
transition (`stepLine`, the `match key` at the bottom). -/

/-- Model of `trimmed.splitn(2, char::is_whitespace)` followed by
lower-casing the key and trimming the value; `none` when the line has no
whitespace (fewer than two parts). -/
def splitKeyValL (trimmed : List Char) : Option (String × String) :=
  let key := trimmed.takeWhile (fun c => !isWS c)
  let rest := trimmed.dropWhile (fun c => !isWS c)
  if rest.isEmpty then none
  else some (String.mk (key.map Char.toLower), String.mk (trimL rest))

inductive LineClass where
  | groupTag (g : String)
  | blank
  | plain
  | keyVal (k v : String)
  deriving DecidableEq

def classifyLine (line : String) : LineClass :=
  match trimL line.data with
  | '#' :: tagRest =>
    let tag := trimL tagRest
    if ['g', 'r', 'o', 'u', 'p', ':'].isPrefixOf tag then
      LineClass.groupTag (String.mk (trimL (tag.drop 6)))
    else LineClass.plain
  | [] => LineClass.blank
  | trimmed =>
    match splitKeyValL trimmed with
    | none => LineClass.plain
    | some (k, v) => LineClass.keyVal k v

structure ParseState where
  current_alias : Option String
  hostname : String
  user : String
  port : Nat
  identity : Option String
  group : String
  hosts : List Host

def initParseState : ParseState :=
  { current_alias := none, hostname := "", user := "", port := 22,
    identity := none, group := "default", hosts := [] }

/-- Model of `u16::from_str` (used by `val.parse()`): optional `+` sign,
then decimal digits, rejecting the empty string and overflow. -/
def parseU16 (s : String) : Option Nat :=
  let cs := match s.data with
    | '+' :: r => r
    | r => r
  if cs.isEmpty then none
  else if cs.all Char.isDigit then
    let n := digitsVal cs
    if n < 65536 then some n else none
  else none

def parsePort (val : String) : Nat := (parseU16 val).getD 22

/-- Model of `val.replace('~', home)`: purely textual substitution. -/
def replaceTildeL (home : String) : List Char → List Char
  | [] => []
  | c :: t =>
    if c = '~' then home.data ++ replaceTildeL home t else c :: replaceTildeL home t

def replaceTilde (home val : String) : String := String.mk (replaceTildeL home val.data)

/-- The "save previous host" step run on each new `Host` line and at end of
input: pushes the pending block unless its alias holds a wildcard, with the
hostname defaulting to the alias when empty. -/
def flushHost (st : ParseState) : List Host :=
  match st.current_alias with
  | none => st.hosts
  | some a =>
    if containsCharS '*' a || containsCharS '?' a then st.hosts
    else st.hosts ++
      [{ aliasName := a, hostname := if st.hostname = "" then a else st.hostname,
         user := st.user, port := st.port, identity_file := st.identity,
         group := st.group, status := HostStatus.Unknown }]

def stepLine (home : String) (st : ParseState) (line : String) : ParseState :=
  match classifyLine line with
  | LineClass.groupTag g => { st with group := g }
  | LineClass.blank => st
  | LineClass.plain => st
  | LineClass.keyVal key val =>
    if key = "host" then
      { current_alias := some val, hostname := "", user := "", port := 22,
        identity := none, group := st.group, hosts := flushHost st }
    else if key = "hostname" then { st with hostname := val }
    else if key = "user" then { st with user := val }
    else if key = "port" then { st with port := parsePort val }
    else if key = "identityfile" then { st with identity := some (replaceTilde home val) }
    else st

/-- Model of `parse_ssh_config`, with the home directory and the file's lines passed
in place of the filesystem reads. -/
def parse_ssh_config (home : String) (lines : List String) : List Host :=
  flushHost (lines.foldl (stepLine home) initParseState)

example : parse_ssh_config "/home/u" ["Host db1", "Hostname 10.0.0.5", "User admin", "Port 2222"] =
    [{ aliasName := "db1", hostname := "10.0.0.5", user := "admin", port := 2222,
       identity_file := none, group := "default", status := HostStatus.Unknown }] := by
  decide

example : parse_ssh_config "" ["Host a", "Host a", "Host b"] =
    [{ aliasName := "a", hostname := "a", user := "", port := 22,
       identity_file := none, group := "default", status := HostStatus.Unknown },
     { aliasName := "a", hostname := "a", user := "", port := 22,
       identity_file := none, group := "default", status := HostStatus.Unknown },
     { aliasName := "b", hostname := "b", user := "", port := 22,
       identity_file := none, group := "default", status := HostStatus.Unknown }] := by
  decide

example : parse_ssh_config "" ["# group: production", "Host web-*", "Host x1", "Hostname h", "Port 70000"] =
    [{ aliasName := "x1", hostname := "h", user := "", port := 22,
       identity_file := none, group := "production", status := HostStatus.Unknown }] := by
  decide

/-! ### `load_hosts` (`src/host.rs` lines 63-87) -/

/-- The sort key order of `hosts.sort_by(|a, b| a.group.cmp(&b.group).then(a.alias.cmp(&b.alias)))`:
`a` may stay before `b` exactly when the comparator does not return `Greater`. -/
def hostLe (a b : Host) : Prop :=
  strLt a.group b.group = true ∨ (a.group = b.group ∧ strLt b.aliasName a.aliasName = false)

instance : DecidableRel hostLe := fun a b => by
  unfold hostLe
  infer_instance

/-- Rust's `sort_by` is a stable sort; any stable sort by the same total
preorder produces the same list, so insertion sort realizes it exactly. -/
def sortHosts (hosts : List Host) : List Host := List.insertionSort hostLe hosts

/-- The supplemental-merge loop of `load_hosts`: push each extra host whose
alias is not already present. -/
def mergeExtra : List Host → List Host → List Host
  | acc, [] => acc
  | acc, h :: t =>
    mergeExtra (if acc.any (fun e => e.aliasName == h.aliasName) then acc else acc ++ [h]) t

def mergeExtraOpt (primary : List Host) : Option (List Host) → List Host
  | none => primary
  | some extra => mergeExtra primary extra

/-- Model of `load_sshmap_config` (`src/host.rs` lines 186-190): `readRes` models the
outcome of `fs::read_to_string` (`none` = missing/unreadable) and `parseJson`
models `serde_json::from_str` on the file's text. -/
def load_sshmap_config (readRes : Option String)
    (parseJson : String → Option (List Host)) : Option (List Host) :=
  match readRes with
  | none => none
  | some c => parseJson c

/-- Model of `load_hosts`: parse the primary config, merge in the supplemental hosts
(if present), sort by (group, alias). -/
def load_hosts (home : String) (primaryLines : List String)
    (extra : Option (List Host)) : List Host :=
  sortHosts (mergeExtraOpt (parse_ssh_config home primaryLines) extra)

/-! ### `src/health.rs`

`check_one` spawns one thread; nothing else runs concurrently with it in the
claims under scrutiny, so its effect is modelled by the sequential execution
of the task body (`check_one_run`) plus the totally ordered trace of its
observable events (`check_one_events`), in program order. -/

inductive ProbeEvent where
  | taskLaunch
  | writeChecking (i : Nat)
  | readHostname (i : Nat)
  | probe
  | writeStatus (i : Nat)
  deriving DecidableEq

/-- Event order of `check_one` (`src/health.rs` lines 37-56): the thread is
spawned first; inside the thread the bounds check either returns early or is
followed by the `Checking` write, the hostname read, the ping and the
terminal status write. -/
def check_one_events (len index : Nat) : List ProbeEvent :=
  ProbeEvent.taskLaunch ::
    (if index < len then
      [ProbeEvent.writeChecking index, ProbeEvent.readHostname index,
       ProbeEvent.probe, ProbeEvent.writeStatus index]
    else [])

/-- Event `e1` occurs strictly before `e2` in the trace. -/
def Before (tr : List ProbeEvent) (e1 e2 : ProbeEvent) : Prop :=
  ∃ i j, i < j ∧ tr.get? i = some e1 ∧ tr.get? j = some e2

def isStatusWrite : ProbeEvent → Bool
  | ProbeEvent.writeChecking _ => true
  | ProbeEvent.writeStatus _ => true
  | _ => false

/-- Write `h[index].status = stt` on a vector: out-of-range indices are never
reached by the code (both writes are guarded by bounds checks). -/
def setStatus : List Host → Nat → HostStatus → List Host
  | [], _, _ => []
  | h :: t, 0, stt => { h with status := stt } :: t
  | h :: t, n + 1, stt => h :: setStatus t n stt

/-- State effect of the `check_one` task body, with the external
`ping_host` call abstracted as `pingFn` on the hostname read under the lock. -/
def check_one_run (hosts : List Host) (index : Nat) (pingFn : String → HostStatus) : List Host :=
  if index < hosts.length then
    let hosts1 := setStatus hosts index HostStatus.Checking
    let hn := ((hosts1.get? index).map Host.hostname).getD ""
    let stt := pingFn hn
    if index < hosts1.length then setStatus hosts1 index stt else hosts1
  else hosts

/-- The test `line.contains("avg") && line.contains('/')` (`src/health.rs` line 80). -/
def lineHasAvgSlash (line : String) : Bool :=
  containsSubS line "avg" && containsCharS '/' line

/-- The `'/'`-separated fields of the text after the last `'='` of a line,
trimmed (`src/health.rs` lines 81-83). -/
def rttFields (line : String) : List (List Char) :=
  splitOnCharL '/' (trimL ((splitOnCharL '=' line.data).getLastD []))

def ratOfScaled (neg : Bool) (n k : Nat) : ℚ :=
  if neg then -((n : ℚ) / ((10 ^ k : Nat) : ℚ)) else (n : ℚ) / ((10 ^ k : Nat) : ℚ)

/-- Model of `f64::from_str` (used by `nums[1].trim().parse()`) restricted to
plain decimal literals `[+-]? digits [. digits]`; exponent, infinity and NaN
forms never occur in ping summaries and are not modelled. -/
def parseDecimalL (cs : List Char) : Option ℚ :=
  let neg := match cs with
    | '-' :: _ => true
    | _ => false
  let rest := match cs with
    | '-' :: r => r
    | '+' :: r => r
    | r => r
  let ip := rest.takeWhile Char.isDigit
  let rest2 := rest.drop ip.length
  match rest2 with
  | [] => if ip.isEmpty then none else some (ratOfScaled neg (digitsVal ip) 0)
  | '.' :: frac =>
    if frac.all Char.isDigit then
      if ip.isEmpty && frac.isEmpty then none
      else some (ratOfScaled neg (digitsVal ip * 10 ^ frac.length + digitsVal frac) frac.length)
    else none
  | _ => none

/-- Model of `parse_ping_rtt` (`src/health.rs` lines 76-91) on the output's lines:
on the first line holding `avg` and a slash whose post-`=` text splits into
at least two fields, the parse of the second field is returned outright;
lines with fewer than two fields fall through to later lines. -/
def parse_ping_rtt : List String → Option ℚ
  | [] => none
  | line :: rest =>
    if lineHasAvgSlash line then
      match rttFields line with
      | _ :: second :: _ => parseDecimalL (trimL second)
      | _ => parse_ping_rtt rest
    else parse_ping_rtt rest

/-- Model of `ping_host` (`src/health.rs` lines 58-74): `success` is the exit status
of the ping command, `outLines` its stdout lines, `elapsedMs` the caller's
wall-clock measurement. -/
def ping_host (success : Bool) (outLines : List String) (elapsedMs : ℚ) : HostStatus :=
  if success then HostStatus.Up ((parse_ping_rtt outLines).getD elapsedMs)
  else HostStatus.Down

/-! ### `src/app.rs` and the filter-edit handlers of `src/main.rs`

Only the fields the claims touch are modelled; the host list is behind a
mutex in the source but no concurrent mutation changes the fields read here
(probe tasks only write `status`, which filtering never reads). -/

structure App where
  hosts : List Host
  selected : Nat
  scroll_offset : Nat
  filter : String

def App.new (hosts : List Host) : App :=
  { hosts := hosts, selected := 0, scroll_offset := 0, filter := "" }

def hostMatches (query : String) (h : Host) : Bool :=
  containsSubS (toLowerS h.aliasName) query || containsSubS (toLowerS h.hostname) query ||
    containsSubS (toLowerS h.group) query || containsSubS (toLowerS h.user) query

/-- Model of `App::filtered_indices` (`src/app.rs` lines 31-48). -/
def filtered_indices (a : App) : List Nat :=
  if a.filter = "" then List.range a.hosts.length
  else
    let query := toLowerS a.filter
    (a.hosts.enum.filter (fun p => hostMatches query p.2)).map Prod.fst

def select_up (a : App) : App :=
  if a.selected > 0 then { a with selected := a.selected - 1 } else a

def select_down (a : App) : App :=
  let mx := (filtered_indices a).length - 1
  if a.selected < mx then { a with selected := a.selected + 1 } else a

def page_up (a : App) (n : Nat) : App := { a with selected := a.selected - n }

def page_down (a : App) (n : Nat) : App :=
  { a with selected := min (a.selected + n) ((filtered_indices a).length - 1) }

/-- Handler of `KeyCode::Char(c)` in filter mode (`src/main.rs` lines 60-64). -/
def filterPush (a : App) (c : Char) : App :=
  { a with filter := String.mk (a.filter.data ++ [c]), selected := 0, scroll_offset := 0 }

/-- Handler of `KeyCode::Backspace` in filter mode (`src/main.rs` lines 55-59). -/
def filterBackspace (a : App) : App :=
  { a with filter := String.mk a.filter.data.dropLast, selected := 0, scroll_offset := 0 }

/-- Handler of `KeyCode::Esc` outside filter mode (`src/main.rs` lines 88-92). -/
def filterClear (a : App) : App :=
  { a with filter := "", selected := 0, scroll_offset := 0 }

inductive UiOp where
  | up
  | down
  | pageUp (n : Nat)
  | pageDown (n : Nat)
  | pushChar (c : Char)
  | backspace
  | clearFilter

def applyOp (a : App) : UiOp → App
  | UiOp.up => select_up a
  | UiOp.down => select_down a
  | UiOp.pageUp n => page_up a n
  | UiOp.pageDown n => page_down a n
  | UiOp.pushChar c => filterPush a c
  | UiOp.backspace => filterBackspace a
  | UiOp.clearFilter => filterClear a

def runOps (hosts : List Host) (ops : List UiOp) : App :=
  ops.foldl applyOp (App.new hosts)

example :
    filtered_indices
      { hosts :=
          [{ aliasName := "web-prod-1", hostname := "192.168.1.10", user := "deploy", port := 22,
             identity_file := none, group := "production", status := HostStatus.Unknown },
           { aliasName := "web-staging", hostname := "192.168.1.20", user := "deploy", port := 22,
             identity_file := none, group := "staging", status := HostStatus.Unknown }],
        selected := 0, scroll_offset := 0, filter := "prod" } = [0] := by
  decide

example : check_one_events 1 0 =
    [ProbeEvent.taskLaunch, ProbeEvent.writeChecking 0, ProbeEvent.readHostname 0,
     ProbeEvent.probe, ProbeEvent.writeStatus 0] := by decide

example : parse_ping_rtt ["rtt min/avg/max/mdev = 1.200/3.400/5.600/0.500 ms"] =
    some (ratOfScaled false 3400 3) := rfl

example : ratOfScaled false 3400 3 = 17/5 := by
  unfold ratOfScaled
  norm_num

/-! ### Specification-side views of the parser input

These describe the primary config at the level the spec talks about: the
`Host` declarations and `Hostname` values a file contains. -/

/-- A concrete (non-pattern) alias: no `*` and no `?`. -/
def nonWildcard (a : String) : Bool := !(containsCharS '*' a || containsCharS '?' a)

/-- The values of the `Host` declarations of the file, in order. -/
def hostVals (lines : List String) : List String :=
  lines.filterMap fun l =>
    match classifyLine l with
    | LineClass.keyVal k v => if k = "host" then some v else none
    | _ => none

/-- The values of the `Hostname` key-value lines, in order. -/
def hostnameVals (lines : List String) : List String :=
  lines.filterMap fun l =>
    match classifyLine l with
    | LineClass.keyVal k v => if k = "hostname" then some v else none
    | _ => none

/-- Whether a line is a `Host` declaration (starts a new block). -/
def isHostLine (l : String) : Bool :=
  match classifyLine l with
  | LineClass.keyVal k _ => k == "host"
  | _ => false

/-! ### Parser fold lemmas -/

lemma flushHost_map_alias (st : ParseState) :
    (flushHost st).map Host.aliasName
      = st.hosts.map Host.aliasName ++
          (match st.current_alias with
           | none => []
           | some a => if nonWildcard a then [a] else []) := by
  unfold flushHost nonWildcard
  cases st.current_alias with
  | none => simp
  | some a =>
    by_cases h : (containsCharS '*' a || containsCharS '?' a) = true
    · simp [h]
    · simp [h]

lemma flushHost_map_alias_congr {st' st : ParseState} (hh : st'.hosts = st.hosts)
    (hc : st'.current_alias = st.current_alias) :
    (flushHost st').map Host.aliasName = (flushHost st).map Host.aliasName := by
  rw [flushHost_map_alias, flushHost_map_alias, hh, hc]

lemma stepLine_not_host (home : String) (st : ParseState) (b : String)
    (hnh : isHostLine b = false) :
    (stepLine home st b).hosts = st.hosts
    ∧ (stepLine home st b).current_alias = st.current_alias
    ∧ (stepLine home st b).hostname =
        (match classifyLine b with
         | LineClass.keyVal k v => if k = "hostname" then v else st.hostname
         | _ => st.hostname) := by
  unfold isHostLine at hnh
  unfold stepLine
  cases hcl : classifyLine b with
  | groupTag g => exact ⟨rfl, rfl, rfl⟩
  | blank => exact ⟨rfl, rfl, rfl⟩
  | plain => exact ⟨rfl, rfl, rfl⟩
  | keyVal k v =>
    rw [hcl] at hnh
    have hk : ¬ k = "host" := by simpa using hnh
    by_cases h2 : k = "hostname"
    · simp [hk, h2]
    · by_cases h3 : k = "user"
      · simp [hk, h2, h3]
      · by_cases h4 : k = "port"
        · simp [hk, h2, h3, h4]
        · by_cases h5 : k = "identityfile"
          · simp [hk, h2, h3, h4, h5]
          · simp [hk, h2, h3, h4, h5]

lemma foldl_stepLine_aliases (home : String) (lines : List String) :
    ∀ st : ParseState,
      (flushHost (lines.foldl (stepLine home) st)).map Host.aliasName
        = (flushHost st).map Host.aliasName ++ (hostVals lines).filter nonWildcard := by
  induction lines with
  | nil => intro st; simp [hostVals]
  | cons l rest ih =>
    intro st
    rw [List.foldl_cons, ih]
    by_cases hhost : isHostLine l = true
    · obtain ⟨v, hcl⟩ : ∃ v, classifyLine l = LineClass.keyVal "host" v := by
        unfold isHostLine at hhost
        cases hcl : classifyLine l with
        | keyVal k v =>
          rw [hcl] at hhost
          exact ⟨v, by rw [show k = "host" from by simpa using hhost]⟩
        | groupTag g => rw [hcl] at hhost; simp at hhost
        | blank => rw [hcl] at hhost; simp at hhost
        | plain => rw [hcl] at hhost; simp at hhost
      have hstep : stepLine home st l =
          { current_alias := some v, hostname := "", user := "", port := 22,
            identity := none, group := st.group, hosts := flushHost st } := by
        unfold stepLine
        rw [hcl]
        simp
      rw [hstep, flushHost_map_alias]
      have hvals : hostVals (l :: rest) = v :: hostVals rest := by
        simp [hostVals, List.filterMap_cons, hcl]
      rw [hvals, List.filter_cons]
      cases hnw : nonWildcard v <;> simp [hnw, List.append_assoc]
    · have hnh : isHostLine l = false := by simpa using hhost
      obtain ⟨p1, p2, _⟩ := stepLine_not_host home st l hnh
      rw [@flushHost_map_alias_congr (stepLine home st l) st p1 p2]
      have hvals : hostVals (l :: rest) = hostVals rest := by
        unfold isHostLine at hnh
        unfold hostVals
        rw [List.filterMap_cons]
        cases hcl : classifyLine l with
        | keyVal k v =>
          rw [hcl] at hnh
          have hk : ¬ k = "host" := by simpa using hnh
          simp [hostVals, hk]
        | groupTag g => simp [hostVals]
        | blank => simp [hostVals]
        | plain => simp [hostVals]
      rw [hvals]

lemma foldl_stepLine_body (home : String) (body : List String) :
    ∀ st : ParseState, (∀ b ∈ body, isHostLine b = false) →
      (body.foldl (stepLine home) st).hosts = st.hosts
      ∧ (body.foldl (stepLine home) st).current_alias = st.current_alias
      ∧ (body.foldl (stepLine home) st).hostname
          = (hostnameVals body).getLastD st.hostname := by
  induction body with
  | nil => exact fun st _ => ⟨rfl, rfl, rfl⟩
  | cons b rest ih =>
    intro st hb
    have hbhead : isHostLine b = false := hb b (by simp)
    have hbrest : ∀ x ∈ rest, isHostLine x = false := fun x hx => hb x (by simp [hx])
    obtain ⟨p1, p2, p3⟩ := stepLine_not_host home st b hbhead
    rw [List.foldl_cons]
    obtain ⟨h1, h2, h3⟩ := ih (stepLine home st b) hbrest
    refine ⟨h1.trans p1, h2.trans p2, ?_⟩
    rw [h3]
    cases hcl : classifyLine b with
    | groupTag g =>
      rw [hcl] at p3
      rw [show (stepLine home st b).hostname = st.hostname from p3,
        show hostnameVals (b :: rest) = hostnameVals rest from by
          simp [hostnameVals, List.filterMap_cons, hcl]]
    | blank =>
      rw [hcl] at p3
      rw [show (stepLine home st b).hostname = st.hostname from p3,
        show hostnameVals (b :: rest) = hostnameVals rest from by
          simp [hostnameVals, List.filterMap_cons, hcl]]
    | plain =>
      rw [hcl] at p3
      rw [show (stepLine home st b).hostname = st.hostname from p3,
        show hostnameVals (b :: rest) = hostnameVals rest from by
          simp [hostnameVals, List.filterMap_cons, hcl]]
    | keyVal k v =>
      rw [hcl] at p3
      have p3' : (stepLine home st b).hostname = if k = "hostname" then v else st.hostname := p3
      by_cases hk : k = "hostname"
      · rw [p3', if_pos hk,
          show hostnameVals (b :: rest) = v :: hostnameVals rest from by
            simp [hostnameVals, List.filterMap_cons, hcl, hk],
          List.getLastD_cons]
      · rw [p3', if_neg hk,
          show hostnameVals (b :: rest) = hostnameVals rest from by
            simp [hostnameVals, List.filterMap_cons, hcl, hk]]

/-! ### Claims C5 and C9 -/

/-- Claim C5: every `Host` block of the primary format whose alias carries no
wildcard yields exactly one record (in order), wildcard blocks yield none, and
the `db1` example block yields exactly the record stated in the spec. -/
theorem c5_blocks (home : String) (lines : List String) :
    (parse_ssh_config home lines).map Host.aliasName = (hostVals lines).filter nonWildcard
    ∧ parse_ssh_config "/home/u" ["Host db1", "Hostname 10.0.0.5", "User admin", "Port 2222"]
        = [{ aliasName := "db1", hostname := "10.0.0.5", user := "admin", port := 2222,
             identity_file := none, group := "default", status := HostStatus.Unknown }] := by
  constructor
  · unfold parse_ssh_config
    rw [foldl_stepLine_aliases]
    simp [flushHost, initParseState]
  · decide

/-- Claim C9: a `Host` block with concrete alias `a` and no further `Host`
line in its body produces one record whose hostname is the last `Hostname`
value of the block, defaulting to the alias itself when the block gives no
(non-empty) hostname. -/
theorem c9_hostname_default (home l a : String) (body : List String)
    (hhead : classifyLine l = LineClass.keyVal "host" a)
    (hwild : nonWildcard a = true)
    (hbody : ∀ b ∈ body, isHostLine b = false) :
    (parse_ssh_config home (l :: body)).map (fun h => (h.aliasName, h.hostname))
      = [(a, if (hostnameVals body).getLastD "" = "" then a
             else (hostnameVals body).getLastD "")] := by
  unfold parse_ssh_config
  rw [List.foldl_cons]
  have hstep : stepLine home initParseState l =
      { current_alias := some a, hostname := "", user := "", port := 22,
        identity := none, group := "default", hosts := [] } := by
    unfold stepLine
    rw [hhead]
    simp [flushHost, initParseState]
  rw [hstep]
  obtain ⟨h1, h2, h3⟩ := foldl_stepLine_body home body _ hbody
  unfold flushHost
  rw [h1, h2, h3]
  have hnw : (containsCharS '*' a || containsCharS '?' a) = false := by
    unfold nonWildcard at hwild
    simpa using hwild
  simp only [hnw, Bool.false_eq_true, if_false]
  simp

theorem c9_witness :
    (parse_ssh_config "" ["Host db9", "Hostname x", "Hostname y", "User u"]).map
        (fun h => (h.aliasName, h.hostname)) = [("db9", "y")] :=
  (c9_hostname_default "" "Host db9" "db9" ["Hostname x", "Hostname y", "User u"]
      (by decide) (by decide) (by decide)).trans (by decide)

/-! ### Order lemmas for the (group, alias) sort -/

lemma lexLtL_self : ∀ cs : List Char, lexLtL cs cs = false := by
  intro cs
  induction cs with
  | nil => rfl
  | cons c t ih => simp [lexLtL, ih]

lemma lexLtL_trans :
    ∀ as bs cs : List Char, lexLtL as bs = true → lexLtL bs cs = true → lexLtL as cs = true := by
  intro as
  induction as with
  | nil =>
    intro bs cs h1 h2
    cases bs with
    | nil => simp [lexLtL] at h1
    | cons b bs =>
      cases cs with
      | nil => simp [lexLtL] at h2
      | cons c cs => simp [lexLtL]
  | cons a as ih =>
    intro bs cs h1 h2
    cases bs with
    | nil => simp [lexLtL] at h1
    | cons b bs =>
      cases cs with
      | nil => simp [lexLtL] at h2
      | cons c cs =>
        simp only [lexLtL, Bool.or_eq_true, Bool.and_eq_true, decide_eq_true_eq] at h1 h2 ⊢
        rcases h1 with h1 | ⟨h1e, h1r⟩
        · rcases h2 with h2 | ⟨h2e, h2r⟩
          · exact Or.inl (lt_trans h1 h2)
          · exact Or.inl (h2e ▸ h1)
        · rcases h2 with h2 | ⟨h2e, h2r⟩
          · exact Or.inl (by rw [h1e]; exact h2)
          · exact Or.inr ⟨h1e.trans h2e, ih bs cs h1r h2r⟩

lemma lexLtL_eq_of_not :
    ∀ as bs : List Char, lexLtL as bs = false → lexLtL bs as = false → as = bs := by
  intro as
  induction as with
  | nil =>
    intro bs h1 _
    cases bs with
    | nil => rfl
    | cons b bs => simp [lexLtL] at h1
  | cons a as ih =>
    intro bs h1 h2
    cases bs with
    | nil => simp [lexLtL] at h2
    | cons b bs =>
      simp only [lexLtL, Bool.or_eq_false_iff, Bool.and_eq_false_iff,
        decide_eq_false_iff_not] at h1 h2
      have hab : a = b := le_antisymm (not_lt.mp h2.1) (not_lt.mp h1.1)
      rcases h1.2 with he | hr
      · exact absurd hab he
      · rcases h2.2 with he2 | hr2
        · exact absurd hab.symm he2
        · rw [hab, ih bs hr hr2]

lemma lexLtL_asymm {as bs : List Char} (h : lexLtL as bs = true) : lexLtL bs as = false := by
  by_contra hc
  have := lexLtL_trans as bs as h (by simpa using hc)
  rw [lexLtL_self] at this
  simp at this

lemma strLt_self (s : String) : strLt s s = false := lexLtL_self s.data

lemma strLt_eq_of_not {a b : String} (h1 : strLt a b = false) (h2 : strLt b a = false) :
    a = b := by
  cases a with
  | mk da =>
    cases b with
    | mk db =>
      have : da = db := lexLtL_eq_of_not da db h1 h2
      rw [this]

instance : IsTrans Host hostLe := by
  constructor
  intro a b c hab hbc
  rcases hab with hab | ⟨hab1, hab2⟩
  · rcases hbc with hbc | ⟨hbc1, hbc2⟩
    · exact Or.inl (lexLtL_trans _ _ _ hab hbc)
    · exact Or.inl (hbc1 ▸ hab)
  · rcases hbc with hbc | ⟨hbc1, hbc2⟩
    · exact Or.inl (by rw [hab1]; exact hbc)
    · refine Or.inr ⟨hab1.trans hbc1, ?_⟩
      by_contra hc
      have hca : strLt c.aliasName a.aliasName = true := by simpa using hc
      rcases hlt : strLt a.aliasName b.aliasName with _ | _
      · have hau : a.aliasName = b.aliasName := strLt_eq_of_not hlt hab2
        rw [hau] at hca
        rw [hca] at hbc2
        simp at hbc2
      · have h3 : strLt c.aliasName b.aliasName = true := lexLtL_trans _ _ _ hca hlt
        rw [h3] at hbc2
        simp at hbc2

instance : IsTotal Host hostLe := by
  constructor
  intro a b
  rcases hg : strLt a.group b.group with _ | _
  · rcases hg2 : strLt b.group a.group with _ | _
    · have hgeq : a.group = b.group := strLt_eq_of_not hg hg2
      rcases ha : strLt b.aliasName a.aliasName with _ | _
      · exact Or.inl (Or.inr ⟨hgeq, ha⟩)
      · exact Or.inr (Or.inr ⟨hgeq.symm, lexLtL_asymm ha⟩)
    · exact Or.inr (Or.inl hg2)
  · exact Or.inl (Or.inl hg)

/-! ### Merge lemmas (claim C1) -/

/-- Spec-side description of the kept supplemental records: keep a record iff
its alias is in neither the taken set nor an earlier kept record. -/
def keptSupp (taken : List String) : List Host → List Host
  | [] => []
  | h :: t =>
    if h.aliasName ∈ taken then keptSupp taken t
    else h :: keptSupp (taken ++ [h.aliasName]) t

/-- Literal transcription of claim C1's merge formula
`result = P ++ {s ∈ S : s.alias ∉ aliases(P)}`. -/
def claim_merge (primary supplemental : List Host) : List Host :=
  primary ++
    supplemental.filter (fun s => !((primary.map Host.aliasName).contains s.aliasName))

lemma mergeExtra_eq_keptSupp :
    ∀ (S acc : List Host), mergeExtra acc S = acc ++ keptSupp (acc.map Host.aliasName) S := by
  intro S
  induction S with
  | nil => intro acc; simp [mergeExtra, keptSupp]
  | cons h t ih =>
    intro acc
    by_cases hmem : h.aliasName ∈ acc.map Host.aliasName
    · have hany : (acc.any fun e => e.aliasName == h.aliasName) = true := by
        rw [List.any_eq_true]
        obtain ⟨e, he, hea⟩ := List.mem_map.mp hmem
        exact ⟨e, he, by simp [hea]⟩
      simp only [mergeExtra, keptSupp, hany, if_true, if_pos hmem]
      exact ih acc
    · have hany : (acc.any fun e => e.aliasName == h.aliasName) = false := by
        rw [List.any_eq_false]
        intro e he
        simp only [beq_iff_eq]
        intro heq
        exact hmem (List.mem_map.mpr ⟨e, he, heq⟩)
      simp only [mergeExtra, keptSupp, hany, Bool.false_eq_true, if_false, if_neg hmem]
      rw [ih (acc ++ [h])]
      simp [List.map_append, List.append_assoc]

lemma keptSupp_nodup :
    ∀ (S : List Host) (taken : List String),
      ((keptSupp taken S).map Host.aliasName).Nodup
      ∧ ∀ a ∈ (keptSupp taken S).map Host.aliasName, a ∉ taken := by
  intro S
  induction S with
  | nil => intro taken; simp [keptSupp]
  | cons h t ih =>
    intro taken
    unfold keptSupp
    by_cases hmem : h.aliasName ∈ taken
    · simp only [if_pos hmem]
      exact ih taken
    · simp only [if_neg hmem, List.map_cons]
      obtain ⟨ihn, ihs⟩ := ih (taken ++ [h.aliasName])
      constructor
      · rw [List.nodup_cons]
        refine ⟨fun hmem2 => ?_, ihn⟩
        exact ihs _ hmem2 (by simp)
      · intro a ha
        rcases List.mem_cons.mp ha with rfl | ha2
        · exact hmem
        · intro hin
          exact ihs a ha2 (by simp [hin])

/-! ### Stability of the final sort (claim C7) -/

/-- The Boolean test for one exact (group, alias) sort key. -/
def keyPred (g a : String) (h : Host) : Bool := decide (h.group = g ∧ h.aliasName = a)

lemma hostLe_of_keyPred {g a : String} {x y : Host}
    (hx : keyPred g a x = true) (hy : keyPred g a y = true) : hostLe x y := by
  unfold keyPred at hx hy
  rw [decide_eq_true_eq] at hx hy
  refine Or.inr ⟨hx.1.trans hy.1.symm, ?_⟩
  rw [hx.2, hy.2]
  exact strLt_self a

lemma filter_orderedInsert (g a : String) (x : Host) :
    ∀ l : List Host,
      (List.orderedInsert hostLe x l).filter (keyPred g a)
        = if keyPred g a x then x :: l.filter (keyPred g a) else l.filter (keyPred g a) := by
  intro l
  induction l with
  | nil =>
    simp only [List.orderedInsert, List.filter]
    cases keyPred g a x <;> simp
  | cons b bl ih =>
    simp only [List.orderedInsert]
    by_cases hle : hostLe x b
    · rw [if_pos hle]
      rw [List.filter_cons, List.filter_cons]
    · rw [if_neg hle]
      rw [List.filter_cons, ih, List.filter_cons]
      by_cases hpx : keyPred g a x = true
      · have hpb : keyPred g a b = false := by
          rcases hb : keyPred g a b with _ | _
          · rfl
          · exact absurd (hostLe_of_keyPred hpx hb) hle
        simp [hpx, hpb]
      · have hpx2 : keyPred g a x = false := by simpa using hpx
        simp only [hpx2, Bool.false_eq_true, if_false]

lemma filter_insertionSort (g a : String) :
    ∀ l : List Host,
      (List.insertionSort hostLe l).filter (keyPred g a) = l.filter (keyPred g a) := by
  intro l
  induction l with
  | nil => rfl
  | cons x xs ih =>
    simp only [List.insertionSort]
    rw [filter_orderedInsert, ih, List.filter_cons]

/-! ### Claims C1, C7, C8 -/

def cexHost : Host :=
  { aliasName := "x", hostname := "xh", user := "", port := 22,
    identity_file := none, group := "default", status := HostStatus.Unknown }

/-- Claim C1 is false on the code: a primary source that declares `Host a` in
two blocks yields the alias `a` twice in the loaded directory (the merge never
dedups within the primary source), and a supplemental list with an internal
duplicate alias keeps only its first copy, so the result also differs from the
claim's formula `P ++ {s ∈ S : s.alias ∉ aliases(P)}`. -/
theorem c1_counterexample :
    ¬ ((load_hosts "" ["Host a", "Host a", "Host b"] (some [cexHost, cexHost])).map
        Host.aliasName).Nodup
    ∧ load_hosts "" ["Host a", "Host a", "Host b"] (some [cexHost, cexHost])
        ≠ sortHosts (claim_merge (parse_ssh_config "" ["Host a", "Host a", "Host b"])
            [cexHost, cexHost]) := by
  constructor
  · decide
  · decide

/-- Claim C1 (amended): the merge result equals the primary records followed
by exactly those supplemental records whose alias occurs neither among the
primary aliases nor among an earlier kept supplemental record; and whenever
the primary records' aliases are themselves distinct, no alias appears twice
in the loaded directory. -/
theorem c1_amended (home : String) (p : List String) (S : List Host)
    (extra : Option (List Host))
    (hnd : ((parse_ssh_config home p).map Host.aliasName).Nodup) :
    mergeExtraOpt (parse_ssh_config home p) (some S)
      = parse_ssh_config home p
          ++ keptSupp ((parse_ssh_config home p).map Host.aliasName) S
    ∧ ((load_hosts home p extra).map Host.aliasName).Nodup := by
  constructor
  · exact mergeExtra_eq_keptSupp S _
  · have hm : ((mergeExtraOpt (parse_ssh_config home p) extra).map Host.aliasName).Nodup := by
      cases extra with
      | none => exact hnd
      | some ex =>
        have hme : mergeExtraOpt (parse_ssh_config home p) (some ex)
            = parse_ssh_config home p
              ++ keptSupp ((parse_ssh_config home p).map Host.aliasName) ex :=
          mergeExtra_eq_keptSupp ex _
        rw [hme, List.map_append, List.nodup_append]
        obtain ⟨kn, ks⟩ := keptSupp_nodup ex ((parse_ssh_config home p).map Host.aliasName)
        exact ⟨hnd, kn, fun a ha hb => ks a hb ha⟩
    have hperm := List.Perm.map Host.aliasName
      (List.perm_insertionSort hostLe (mergeExtraOpt (parse_ssh_config home p) extra))
    exact hperm.symm.nodup hm

theorem c1_amended_witness :
    mergeExtraOpt (parse_ssh_config "" ["Host a"]) (some [cexHost])
      = parse_ssh_config "" ["Host a"]
          ++ keptSupp ((parse_ssh_config "" ["Host a"]).map Host.aliasName) [cexHost]
    ∧ ((load_hosts "" ["Host a"] (some [cexHost])).map Host.aliasName).Nodup :=
  c1_amended "" ["Host a"] [cexHost] (some [cexHost]) (by decide)

/-- Claim C7: the loaded directory is sorted ascending by (group, alias) under
the case-sensitive string order; the sort is stable (records with any one
exact (group, alias) key keep their pre-sort relative order); and loading the
same unchanged inputs twice yields the same directory. -/
theorem c7_sorted_stable (home : String) (p p' : List String)
    (extra extra' : Option (List Host)) (hp : p = p') (he : extra = extra') :
    List.Sorted hostLe (load_hosts home p extra)
    ∧ (∀ g a : String,
        (load_hosts home p extra).filter (keyPred g a)
          = (mergeExtraOpt (parse_ssh_config home p) extra).filter (keyPred g a))
    ∧ load_hosts home p extra = load_hosts home p' extra' := by
  refine ⟨?_, ?_, by rw [hp, he]⟩
  · exact List.sorted_insertionSort hostLe _
  · intro g a
    exact filter_insertionSort g a _

theorem c7_witness :
    List.Sorted hostLe (load_hosts "" ["Host b", "Host a"] none)
    ∧ (load_hosts "" ["Host b", "Host a"] none).filter (keyPred "default" "a")
        = (mergeExtraOpt (parse_ssh_config "" ["Host b", "Host a"]) none).filter
            (keyPred "default" "a")
    ∧ load_hosts "" ["Host b", "Host a"] none = load_hosts "" ["Host b", "Host a"] none := by
  have h := c7_sorted_stable "" ["Host b", "Host a"] ["Host b", "Host a"] none none rfl rfl
  exact ⟨h.1, h.2.1 "default" "a", h.2.2⟩

/-- Claim C8: an unreadable supplemental source and a malformed one are
treated identically: both contribute zero records and the load result is
exactly the (sorted) primary records. -/
theorem c8_supplemental_fallback (home : String) (p : List String)
    (parseJson : String → Option (List Host)) (c : String)
    (hmal : parseJson c = none) :
    load_sshmap_config none parseJson = none
    ∧ load_sshmap_config (some c) parseJson = none
    ∧ load_hosts home p (load_sshmap_config none parseJson)
        = sortHosts (parse_ssh_config home p)
    ∧ load_hosts home p (load_sshmap_config (some c) parseJson)
        = load_hosts home p (load_sshmap_config none parseJson) := by
  refine ⟨rfl, hmal, rfl, ?_⟩
  rw [show load_sshmap_config (some c) parseJson = none from hmal]
  rfl

/-! ### Claim C6 (`filtered_indices`) -/

def emptyHost : Host :=
  { aliasName := "", hostname := "", user := "", port := 0,
    identity_file := none, group := "", status := HostStatus.Unknown }

lemma isInfixL_nil : ∀ h : List Char, isInfixL [] h = true := by
  intro h
  cases h with
  | nil => rfl
  | cons c t => rfl

lemma hostMatches_empty (h : Host) : hostMatches "" h = true := by
  unfold hostMatches containsSubS
  rw [show ("" : String).data = [] from rfl, isInfixL_nil]
  rfl

lemma enumFrom_filter_map (q : String) :
    ∀ (l : List Host) (s : Nat),
      ((List.enumFrom s l).filter (fun pr => hostMatches q pr.2)).map Prod.fst
        = (List.range' s l.length).filter
            (fun i => hostMatches q (l.getD (i - s) emptyHost)) := by
  intro l
  induction l with
  | nil => intro s; rfl
  | cons h t ih =>
    intro s
    have htail :
        ((List.enumFrom (s + 1) t).filter (fun pr => hostMatches q pr.2)).map Prod.fst
          = (List.range' (s + 1) t.length).filter
              (fun i => hostMatches q ((h :: t).getD (i - s) emptyHost)) := by
      rw [ih (s + 1)]
      apply List.filter_congr
      intro i hi
      have his : s + 1 ≤ i := (List.mem_range'_1.mp hi).1
      have hidx : i - s = (i - (s + 1)) + 1 := by omega
      rw [hidx]
      rfl
    rw [show List.enumFrom s (h :: t) = (s, h) :: List.enumFrom (s + 1) t from rfl]
    rw [show List.range' s (h :: t).length = s :: List.range' (s + 1) t.length from rfl]
    simp only [List.filter_cons]
    have hsx : (h :: t).getD (s - s) emptyHost = h := by
      rw [Nat.sub_self]
      rfl
    rw [hsx]
    cases hm : hostMatches q h with
    | false =>
      simp only [hm, Bool.false_eq_true, if_false]
      exact htail
    | true =>
      simp only [hm, if_true, List.map_cons]
      exact congrArg (List.cons s) htail

/-- Claim C6: the filtered view is exactly the list of directory indices, in
directory order, whose alias, hostname, group or user contains the filter
text as a case-insensitive substring (the empty filter matching everything),
and the spec's `"prod"` example returns only `web-prod-1`. -/
theorem c6_filter (flt : String) (hosts : List Host) (sel so : Nat) :
    filtered_indices { hosts := hosts, selected := sel, scroll_offset := so, filter := flt }
      = (List.range hosts.length).filter
          (fun i => hostMatches (toLowerS flt) (hosts.getD i emptyHost))
    ∧ filtered_indices
        { hosts :=
            [{ aliasName := "web-prod-1", hostname := "192.168.1.10", user := "deploy",
               port := 22, identity_file := none, group := "production",
               status := HostStatus.Unknown },
             { aliasName := "web-staging", hostname := "192.168.1.20", user := "deploy",
               port := 22, identity_file := none, group := "staging",
               status := HostStatus.Unknown }],
          selected := 0, scroll_offset := 0, filter := "prod" } = [0] := by
  constructor
  · by_cases hf : flt = ""
    · subst hf
      rw [show filtered_indices
            { hosts := hosts, selected := sel, scroll_offset := so, filter := "" }
          = List.range hosts.length from by unfold filtered_indices; rfl]
      refine Eq.symm (List.filter_eq_self.mpr ?_)
      intro i _
      rw [show toLowerS "" = "" from rfl]
      exact hostMatches_empty _
    · have hstep : filtered_indices
          { hosts := hosts, selected := sel, scroll_offset := so, filter := flt }
          = ((List.enumFrom 0 hosts).filter
              (fun p => hostMatches (toLowerS flt) p.2)).map Prod.fst := by
        unfold filtered_indices
        rw [if_neg hf]
        rfl
      rw [hstep, enumFrom_filter_map, List.range_eq_range']
      apply List.filter_congr
      intro i _
      rfl
  · decide

/-! ### Claim C3 (cursor navigation invariant) -/

lemma filtered_indices_selected (a : App) (x : Nat) :
    filtered_indices { a with selected := x } = filtered_indices a := rfl

lemma applyOp_inv (a : App) (op : UiOp)
    (h : a.selected ≤ (filtered_indices a).length - 1) :
    (applyOp a op).selected ≤ (filtered_indices (applyOp a op)).length - 1 := by
  cases op with
  | up =>
    show (select_up a).selected ≤ (filtered_indices (select_up a)).length - 1
    unfold select_up
    by_cases h0 : a.selected > 0
    · rw [if_pos h0, filtered_indices_selected]
      exact le_trans (Nat.sub_le a.selected 1) h
    · rw [if_neg h0]
      exact h
  | down =>
    show (select_down a).selected ≤ (filtered_indices (select_down a)).length - 1
    simp only [select_down]
    by_cases hlt : a.selected < (filtered_indices a).length - 1
    · rw [if_pos hlt, filtered_indices_selected]
      show a.selected + 1 ≤ (filtered_indices a).length - 1
      omega
    · rw [if_neg hlt]
      exact h
  | pageUp n =>
    show (page_up a n).selected ≤ (filtered_indices (page_up a n)).length - 1
    unfold page_up
    rw [filtered_indices_selected]
    show a.selected - n ≤ (filtered_indices a).length - 1
    omega
  | pageDown n =>
    show (page_down a n).selected ≤ (filtered_indices (page_down a n)).length - 1
    unfold page_down
    rw [filtered_indices_selected]
    exact Nat.min_le_right _ _
  | pushChar c => exact Nat.zero_le _
  | backspace => exact Nat.zero_le _
  | clearFilter => exact Nat.zero_le _

lemma runOps_inv (hosts : List Host) (ops : List UiOp) :
    (runOps hosts ops).selected ≤ (filtered_indices (runOps hosts ops)).length - 1 := by
  have main : ∀ (ops2 : List UiOp) (a : App),
      a.selected ≤ (filtered_indices a).length - 1 →
      (ops2.foldl applyOp a).selected ≤ (filtered_indices (ops2.foldl applyOp a)).length - 1 := by
    intro ops2
    induction ops2 with
    | nil => exact fun a h => h
    | cons op rest ih =>
      intro a h
      rw [List.foldl_cons]
      exact ih _ (applyOp_inv a op h)
  exact main ops (App.new hosts) (Nat.zero_le _)

/-- Claim C3: after any finite sequence of navigation and filter-edit
operations from the initial state, the cursor is inside
`[0, filtered_length-1]` whenever the filtered list is non-empty, and each
navigation step clamps at the ends (saturating subtraction, `min` against the
last index) rather than wrapping. -/
theorem c3_cursor (hosts : List Host) (ops : List UiOp) :
    (0 < (filtered_indices (runOps hosts ops)).length →
      (runOps hosts ops).selected < (filtered_indices (runOps hosts ops)).length)
    ∧ (select_up (runOps hosts ops)).selected = (runOps hosts ops).selected - 1
    ∧ (∀ n, (page_up (runOps hosts ops) n).selected = (runOps hosts ops).selected - n)
    ∧ (select_down (runOps hosts ops)).selected
        = min ((runOps hosts ops).selected + 1)
            ((filtered_indices (runOps hosts ops)).length - 1)
    ∧ (∀ n, (page_down (runOps hosts ops) n).selected
        = min ((runOps hosts ops).selected + n)
            ((filtered_indices (runOps hosts ops)).length - 1)) := by
  have hinv := runOps_inv hosts ops
  set a := runOps hosts ops with ha
  refine ⟨?_, ?_, fun n => rfl, ?_, fun n => rfl⟩
  · intro hpos
    omega
  · unfold select_up
    by_cases h0 : a.selected > 0
    · rw [if_pos h0]
    · rw [if_neg h0]
      omega
  · simp only [select_down]
    by_cases hlt : a.selected < (filtered_indices a).length - 1
    · rw [if_pos hlt]
      show a.selected + 1 = min (a.selected + 1) ((filtered_indices a).length - 1)
      omega
    · rw [if_neg hlt]
      show a.selected = min (a.selected + 1) ((filtered_indices a).length - 1)
      omega

theorem c3_witness :
    (runOps [cexHost] [UiOp.down]).selected
      < (filtered_indices (runOps [cexHost] [UiOp.down])).length :=
  (c3_cursor [cexHost] [UiOp.down]).1 (by decide)

/-! ### Claims C2 and C10 (`check_one`) -/

/-- Claim C2 is false on the code at this concrete instance: for a directory
of length 1 probed at index 0, the `Checking` write does not precede the task
launch — `check_one` spawns the thread first and performs the `Checking`
write inside it. -/
theorem c2_counterexample :
    ¬ Before (check_one_events 1 0) (ProbeEvent.writeChecking 0) ProbeEvent.taskLaunch
    ∧ Before (check_one_events 1 0) ProbeEvent.taskLaunch (ProbeEvent.writeChecking 0) := by
  constructor
  · rintro ⟨i, j, hij, h1, h2⟩
    have htr : check_one_events 1 0 = [ProbeEvent.taskLaunch, ProbeEvent.writeChecking 0,
        ProbeEvent.readHostname 0, ProbeEvent.probe, ProbeEvent.writeStatus 0] := by decide
    rw [htr] at h1 h2
    have hj : j = 0 := by
      rcases j with _ | _ | _ | _ | _ | j
      · rfl
      all_goals simp [List.get?] at h2
    rw [hj] at hij
    exact absurd hij (Nat.not_lt_zero i)
  · exact ⟨0, 1, by omega, rfl, rfl⟩

/-- Claim C2 (amended): for every in-range index the `Checking` write happens
inside the spawned probe task — after the launch, but before the hostname
read and before the external reachability check, which therefore only happen
after the `Checking` write. -/
theorem c2_amended (len index : Nat) (h : index < len) :
    check_one_events len index
      = [ProbeEvent.taskLaunch, ProbeEvent.writeChecking index,
         ProbeEvent.readHostname index, ProbeEvent.probe, ProbeEvent.writeStatus index]
    ∧ Before (check_one_events len index) ProbeEvent.taskLaunch (ProbeEvent.writeChecking index)
    ∧ Before (check_one_events len index) (ProbeEvent.writeChecking index)
        (ProbeEvent.readHostname index)
    ∧ Before (check_one_events len index) (ProbeEvent.writeChecking index) ProbeEvent.probe := by
  have htr : check_one_events len index
      = [ProbeEvent.taskLaunch, ProbeEvent.writeChecking index,
         ProbeEvent.readHostname index, ProbeEvent.probe, ProbeEvent.writeStatus index] := by
    unfold check_one_events
    rw [if_pos h]
  refine ⟨htr, ⟨0, 1, by omega, ?_, ?_⟩, ⟨1, 2, by omega, ?_, ?_⟩, ⟨1, 3, by omega, ?_, ?_⟩⟩
    <;> (rw [htr]; rfl)

theorem c2_amended_witness :
    check_one_events 1 0
      = [ProbeEvent.taskLaunch, ProbeEvent.writeChecking 0, ProbeEvent.readHostname 0,
         ProbeEvent.probe, ProbeEvent.writeStatus 0]
    ∧ Before (check_one_events 1 0) (ProbeEvent.writeChecking 0) (ProbeEvent.readHostname 0) := by
  have h := c2_amended 1 0 (by decide)
  exact ⟨h.1, h.2.2.1⟩

/-- Claim C10: an out-of-range index makes `check_one` a no-op — the spawned
task returns at the bounds check before any status write, so the directory is
unchanged and the trace holds no write event. -/
theorem c10_out_of_range (hosts : List Host) (index : Nat) (pingFn : String → HostStatus)
    (h : hosts.length ≤ index) :
    check_one_run hosts index pingFn = hosts
    ∧ ∀ e ∈ check_one_events hosts.length index, isStatusWrite e = false := by
  have hnl : ¬ index < hosts.length := by omega
  constructor
  · unfold check_one_run
    rw [if_neg hnl]
  · unfold check_one_events
    rw [if_neg hnl]
    intro e he
    have : e = ProbeEvent.taskLaunch := by simpa using he
    rw [this]
    rfl

theorem c10_witness : check_one_run [cexHost] 3 (fun _ => HostStatus.Down) = [cexHost] :=
  (c10_out_of_range [cexHost] 3 (fun _ => HostStatus.Down) (by decide)).1

/-! ### Claim C4 (`parse_ping_rtt` / `ping_host`) -/

/-- Literal transcription of claim C4's parsing sentence: the latency comes
from the first output line containing both `avg` and a `'/'`, by taking the
text after the `'='` sign, splitting it on `'/'` and reading the second
field. -/
def parse_ping_rtt_claim (lines : List String) : Option ℚ :=
  match lines.find? lineHasAvgSlash with
  | some line =>
    match rttFields line with
    | _ :: second :: _ => parseDecimalL (trimL second)
    | _ => none
  | none => none

/-- Amended description of the code's selection rule: the first line that
contains `avg` and `'/'` and whose post-`'='` text splits into at least two
fields determines the result (the parse of its second field, which may fail);
matching lines with fewer than two fields are skipped. -/
def parse_ping_rtt_fixed (lines : List String) : Option ℚ :=
  match lines.find? (fun l => lineHasAvgSlash l && decide (2 ≤ (rttFields l).length)) with
  | some line => parseDecimalL (trimL ((rttFields line).getD 1 []))
  | none => none

lemma parse_ping_rtt_eq_fixed : ∀ lines, parse_ping_rtt lines = parse_ping_rtt_fixed lines := by
  intro lines
  induction lines with
  | nil => rfl
  | cons l rest ih =>
    unfold parse_ping_rtt parse_ping_rtt_fixed
    cases hach : lineHasAvgSlash l with
    | false =>
      rw [List.find?_cons_of_neg _ (by simp [hach])]
      simp only [Bool.false_eq_true, if_false]
      exact ih
    | true =>
      simp only [if_true]
      cases hf : rttFields l with
      | nil =>
        rw [List.find?_cons_of_neg _ (by simp [hach, hf])]
        exact ih
      | cons f1 fr =>
        cases fr with
        | nil =>
          rw [List.find?_cons_of_neg _ (by simp [hach, hf])]
          exact ih
        | cons f2 fr2 =>
          rw [List.find?_cons_of_pos _ (by simp [hach, hf])]
          show parseDecimalL (trimL f2) = parseDecimalL (trimL ((rttFields l).getD 1 []))
          rw [hf]
          rfl

/-- Claim C4 fails on the code at this concrete output: the first line
containing `avg` and `'/'` (`"x/ avg ="`) yields no second field after the
`'='` split, and the code then parses the *second* matching line to `9.9`
instead of falling back to the wall-clock measurement. -/
theorem c4_counterexample :
    parse_ping_rtt ["x/ avg =", "rtt min/avg/max/mdev = 1.200/9.900/5.600/0.500 ms"]
        = some (ratOfScaled false 9900 3)
    ∧ parse_ping_rtt_claim ["x/ avg =", "rtt min/avg/max/mdev = 1.200/9.900/5.600/0.500 ms"]
        = none
    ∧ ratOfScaled false 9900 3 = 99/10
    ∧ ping_host true ["x/ avg =", "rtt min/avg/max/mdev = 1.200/9.900/5.600/0.500 ms"] 7
        = HostStatus.Up (ratOfScaled false 9900 3) := by
  refine ⟨rfl, rfl, ?_, rfl⟩
  unfold ratOfScaled
  norm_num

/-- Claim C4 (amended): the latency is parsed from the first `avg`-and-slash
line whose post-`'='` text has at least two slash-separated fields (skipping
matching lines with fewer); the spec's example line parses to `3.4`; and when
no value is obtained, the caller's wall-clock elapsed time is used; failures
give `Down`. -/
theorem c4_amended :
    (∀ lines, parse_ping_rtt lines = parse_ping_rtt_fixed lines)
    ∧ parse_ping_rtt ["rtt min/avg/max/mdev = 1.200/3.400/5.600/0.500 ms"] = some (17 / 5)
    ∧ (∀ outLines elapsed, parse_ping_rtt outLines = none →
        ping_host true outLines elapsed = HostStatus.Up elapsed)
    ∧ (∀ outLines elapsed, ping_host false outLines elapsed = HostStatus.Down) := by
  refine ⟨parse_ping_rtt_eq_fixed, ?_, ?_, fun outLines elapsed => rfl⟩
  · rw [show parse_ping_rtt ["rtt min/avg/max/mdev = 1.200/3.400/5.600/0.500 ms"]
        = some (ratOfScaled false 3400 3) from rfl]
    exact congrArg some (by unfold ratOfScaled; norm_num)
  · intro outLines elapsed hnone
    unfold ping_host
    rw [if_pos rfl, hnone]
    rfl

theorem c4_witness :
    parse_ping_rtt ["PING x", "no stats here"] = parse_ping_rtt_fixed ["PING x", "no stats here"]
    ∧ ping_host true ["PING x", "no stats here"] 7 = HostStatus.Up 7 := by
  have h := c4_amended
  exact ⟨h.1 ["PING x", "no stats here"], h.2.2.1 ["PING x", "no stats here"] 7 (by decide)⟩

theorem c8_witness :
    load_sshmap_config none (fun _ => none) = (none : Option (List Host))
    ∧ load_sshmap_config (some "not json") (fun _ => none) = none
    ∧ load_hosts "" ["Host a"] (load_sshmap_config none (fun _ => none))
        = sortHosts (parse_ssh_config "" ["Host a"])
    ∧ load_hosts "" ["Host a"] (load_sshmap_config (some "not json") (fun _ => none))
        = load_hosts "" ["Host a"] (load_sshmap_config none (fun _ => none)) :=
  c8_supplemental_fallback "" ["Host a"] (fun _ => none) "not json" rfl

end SshMap
